import Mathlib

/-!
Verification development for the spellcheck-llm repository (bilingual
medical-terminology PDF checker).  Python text values are embedded as lists
of Unicode code points (`PyStr`); the repository's pure helpers
(`normalize_text`, `cjk_fuzzy_pattern`, `split_variants`,
`standardize_master`, `parse_pdf_pairs`, `detect_differences`, the
consistency/first-mention scan loops and the unknown-term candidate loops)
are translated function by function from the Python sources named next to
each definition.
-/

/-- A Python string, as its sequence of Unicode code points. -/
abbrev PyStr : Type := List Nat

/-- Code points of a Lean string literal, to write embedded Python strings. -/
def pyStr (s : String) : PyStr := s.data.map Char.toNat

/-- The whitespace code points recognised by Python's `str.isspace` and by the
`re` module's `\s` on the characters this repository handles (ASCII controls,
space, NEL, NBSP, ogham, the U+2000 block, line/para separators, narrow and
math spaces, ideographic space). One predicate is used for both roles. -/
def wsChars : List Nat :=
  [0x09, 0x0A, 0x0B, 0x0C, 0x0D, 0x1C, 0x1D, 0x1E, 0x1F, 0x20, 0x85, 0xA0,
   0x1680, 0x2000, 0x2001, 0x2002, 0x2003, 0x2004, 0x2005, 0x2006, 0x2007,
   0x2008, 0x2009, 0x200A, 0x2028, 0x2029, 0x202F, 0x205F, 0x3000]

/-- Python `ch.isspace()` / regex `\s` membership on one code point. -/
def isSpaceB (c : Nat) : Bool := decide (c ∈ wsChars)

/-- Source `pdf_spellcheck.py` line 69 and `app_streamlit_super.py` lines
39-40: `is_cjk(ch)` is true on the three CJK ranges tested there. -/
def is_cjk (c : Nat) : Bool :=
  (0x4E00 ≤ c && c ≤ 0x9FFF) || (0x3400 ≤ c && c ≤ 0x4DBF) ||
    (0xF900 ≤ c && c ≤ 0xFAFF)

/-- ASCII lower-casing of one code point (what `re.IGNORECASE` and
`str.lower()` do on the ASCII letters the termbase's English fields use). -/
def asciiLower (c : Nat) : Nat := if 0x41 ≤ c ∧ c ≤ 0x5A then c + 0x20 else c

/-- Case-insensitive code-point comparison, as compiled with `re.IGNORECASE`. -/
def chEq (a b : Nat) : Bool := asciiLower a == asciiLower b

/-- Python `s.strip()`: drop whitespace from both ends. -/
def pyStrip (s : PyStr) : PyStr :=
  ((((s.dropWhile isSpaceB).reverse).dropWhile isSpaceB)).reverse

/-- Python `s.lower()` on the ASCII letters handled here. -/
def pyLower (s : PyStr) : PyStr := s.map asciiLower

/-- ASCII upper-casing of one code point. -/
def asciiUpper (c : Nat) : Nat := if 0x61 ≤ c ∧ c ≤ 0x7A then c - 0x20 else c

/-- Python `s.upper()` on the ASCII letters handled here. -/
def pyUpper (s : PyStr) : PyStr := s.map asciiUpper

/-- Python slicing `s[a:b]` with already-clamped `a` (Nat subtraction in the
callers plays the role of `max(0, ...)`). -/
def pySlice (s : PyStr) (a b : Nat) : PyStr := (s.drop a).take (b - a)

/-!
## Fuzzy token pattern builder

`pdf_spellcheck.py` lines 71-78 (`cjk_fuzzy_pattern`) and
`app_streamlit_super.py` / `app_streamlit_plus.py` (`cjk_pat`) build, from a
literal token, a regex that concatenates: `\s+` for a whitespace character of
the token, `re.escape(ch) + '\s*'` for a CJK character, `\s*-\s*` for a
hyphen, and `re.escape(ch)` for anything else.  The pieces are embedded as
`PatItem`s; `matchPre` decides whether such a concatenation matches a prefix
of a string (with the case-insensitive comparison the callers compile with),
and `searchB` is `re.search`/`finditer`-style matching at any position.
-/

/-- One concatenated piece of a pattern built by `cjk_fuzzy_pattern`. -/
inductive PatItem where
  | lit (c : Nat)      -- re.escape(ch)
  | cjkStar (c : Nat)  -- re.escape(ch) ++ \s*
  | wsPlus             -- \s+
  | hyphen             -- \s*-\s*
deriving DecidableEq

/-- The translation of one source character inside `cjk_fuzzy_pattern`'s
loop (`pdf_spellcheck.py` lines 73-77). -/
def patItemOf (c : Nat) : PatItem :=
  if isSpaceB c then .wsPlus
  else if is_cjk c then .cjkStar c
  else if c == 0x2D then .hyphen
  else .lit c

/-- Source `cjk_fuzzy_pattern` / `cjk_pat`: strip the token, then translate
each character. -/
def cjk_fuzzy_pattern (tok : PyStr) : List PatItem := (pyStrip tok).map patItemOf

/-- All ways `\s*` can consume a prefix of `s`: the number of whitespace
code points skipped, paired with what remains. -/
def wsSkips : List Nat → List (Nat × List Nat)
  | [] => [(0, [])]
  | c :: r =>
    (0, c :: r) :: (if isSpaceB c then (wsSkips r).map (fun p => (p.1 + 1, p.2)) else [])

/-- Whether the concatenation `ps` matches some prefix of `s` (the
`re.match`-at-this-position test, case-insensitive as compiled). -/
def matchPre : List PatItem → List Nat → Bool
  | [], _ => true
  | .lit _ :: _, [] => false
  | .lit c :: ps, a :: r => chEq a c && matchPre ps r
  | .cjkStar _ :: _, [] => false
  | .cjkStar c :: ps, a :: r => chEq a c && (wsSkips r).any (fun p => matchPre ps p.2)
  | .wsPlus :: _, [] => false
  | .wsPlus :: ps, a :: r => isSpaceB a && (wsSkips r).any (fun p => matchPre ps p.2)
  | .hyphen :: ps, s =>
    (wsSkips s).any (fun p =>
      match p.2 with
      | [] => false
      | h :: r => h == 0x2D && (wsSkips r).any (fun q => matchPre ps q.2))

/-- Whether the pattern matches anywhere in `s` (`re.search` / whether
`finditer` yields at least one hit). -/
def searchB (ps : List PatItem) (s : List Nat) : Bool := s.tails.any (matchPre ps)

/-- T with arbitrary (possibly empty) runs of whitespace inserted between any
two consecutive characters of T — and nowhere else. -/
inductive InsWs : List Nat → List Nat → Prop
  | nil : InsWs [] []
  | single (c : Nat) : InsWs [c] [c]
  | cons (c : Nat) (w T S : List Nat) :
      (∀ x ∈ w, isSpaceB x = true) → T ≠ [] → InsWs T S →
      InsWs (c :: T) (c :: (w ++ S))

lemma insWs_refl : ∀ T : List Nat, InsWs T T := by
  intro T
  induction T with
  | nil => exact .nil
  | cons c T ih =>
    cases T with
    | nil => exact .single c
    | cons d T' =>
      have h := InsWs.cons c [] (d :: T') (d :: T') (by intro x hx; cases hx)
        (by simp) ih
      simpa using h

lemma isSpaceB_false_of_cjk {c : Nat} (h : is_cjk c = true) : isSpaceB c = false := by
  simp only [is_cjk, Bool.or_eq_true, Bool.and_eq_true, decide_eq_true_eq] at h
  simp only [isSpaceB, wsChars, List.mem_cons, List.not_mem_nil, or_false,
    decide_eq_false_iff_not]
  omega

lemma chEq_cjk_eq {a c : Nat} (hc : is_cjk c = true) (h : chEq a c = true) : a = c := by
  simp only [chEq, beq_iff_eq, asciiLower] at h
  simp only [is_cjk, Bool.or_eq_true, Bool.and_eq_true, decide_eq_true_eq] at hc
  split at h <;> split at h <;> omega

lemma dropWhile_eq_self_of_none {p : Nat → Bool} {s : List Nat}
    (h : ∀ c ∈ s, p c = false) : s.dropWhile p = s := by
  cases s with
  | nil => rfl
  | cons a r => simp [List.dropWhile, h a (by simp)]

lemma pyStrip_eq_self_of_cjk {T : List Nat} (h : ∀ c ∈ T, is_cjk c = true) :
    pyStrip T = T := by
  have hw : ∀ c ∈ T, isSpaceB c = false := fun c hc => isSpaceB_false_of_cjk (h c hc)
  unfold pyStrip
  rw [dropWhile_eq_self_of_none hw,
    dropWhile_eq_self_of_none (by intro c hc; exact hw c (List.mem_reverse.mp hc)),
    List.reverse_reverse]

lemma pattern_of_cjk {T : List Nat} (h : ∀ c ∈ T, is_cjk c = true) :
    cjk_fuzzy_pattern T = T.map PatItem.cjkStar := by
  unfold cjk_fuzzy_pattern
  rw [pyStrip_eq_self_of_cjk h]
  apply List.map_congr_left
  intro c hc
  simp [patItemOf, isSpaceB_false_of_cjk (h c hc), h c hc]

lemma chEq_refl (c : Nat) : chEq c c = true := by simp [chEq]

lemma mem_wsSkips_of_ws_prefix {w S : List Nat} (hw : ∀ x ∈ w, isSpaceB x = true) :
    (w.length, S) ∈ wsSkips (w ++ S) := by
  induction w with
  | nil =>
    cases S with
    | nil => simp [wsSkips]
    | cons a r => simp [wsSkips]
  | cons x w ih =>
    have hx : isSpaceB x = true := hw x (by simp)
    have ih' := ih (fun y hy => hw y (by simp [hy]))
    simp only [List.cons_append, wsSkips, hx, if_true, List.length_cons]
    right
    exact List.mem_map.mpr ⟨(w.length, S), ih', rfl⟩

lemma insWs_matchPre {T S : List Nat} (h : InsWs T S)
    (hcjk : ∀ c ∈ T, is_cjk c = true) :
    matchPre (T.map PatItem.cjkStar) S = true := by
  induction h with
  | nil => rfl
  | single c => simp [matchPre, chEq_refl, wsSkips]
  | cons c w T S hw _ _ ih =>
    have ih' := ih (fun x hx => hcjk x (by simp [hx]))
    simp only [List.map_cons, matchPre, Bool.and_eq_true, chEq_refl, true_and,
      List.any_eq_true]
    exact ⟨(w.length, S), mem_wsSkips_of_ws_prefix hw, ih'⟩

lemma wsSkips_filter {r : List Nat} :
    ∀ p ∈ wsSkips r, p.2.filter (fun c => !isSpaceB c) = r.filter (fun c => !isSpaceB c) := by
  induction r with
  | nil => intro p hp; simp [wsSkips] at hp; simp [hp]
  | cons a r ih =>
    intro p hp
    simp only [wsSkips] at hp
    rcases List.mem_cons.mp hp with h | h
    · simp [h]
    · by_cases ha : isSpaceB a = true
      · simp only [ha, if_true] at h
        obtain ⟨q, hq, hqe⟩ := List.mem_map.mp h
        have := ih q hq
        subst hqe
        simp only [List.filter_cons, ha, Bool.not_true]
        simpa using this
      · simp [ha] at h

lemma matchPre_cjk_count {T : List Nat} (hcjk : ∀ c ∈ T, is_cjk c = true) :
    ∀ s : List Nat, matchPre (T.map PatItem.cjkStar) s = true →
      T.length ≤ (s.filter (fun c => !isSpaceB c)).length := by
  induction T with
  | nil => intro s _; simp
  | cons c T ih =>
    intro s hm
    cases s with
    | nil => simp [matchPre] at hm
    | cons a r =>
      simp only [List.map_cons, matchPre, Bool.and_eq_true, List.any_eq_true] at hm
      obtain ⟨hceq, q, hq, hmq⟩ := hm
      have hc : is_cjk c = true := hcjk c (by simp)
      have hac : a = c := chEq_cjk_eq hc hceq
      have hanws : isSpaceB a = false := by rw [hac]; exact isSpaceB_false_of_cjk hc
      have hrec := ih (fun x hx => hcjk x (by simp [hx])) q.2 hmq
      have hfe := wsSkips_filter q hq
      rw [hfe] at hrec
      simp only [List.filter_cons, hanws, Bool.not_false]
      simp only [if_true, List.length_cons]
      omega

/-- C1: for every token T of CJK characters only, the regex built by
`cjk_fuzzy_pattern` (alias `cjk_pat`) matches T itself; it matches T with
arbitrary whitespace inserted between any two characters of T; and it does
not match any string obtained from T by deleting one character. -/
theorem c1_cjk_fuzzy_tolerance (T : List Nat) (hcjk : ∀ c ∈ T, is_cjk c = true) :
    searchB (cjk_fuzzy_pattern T) T = true ∧
    (∀ S, InsWs T S → searchB (cjk_fuzzy_pattern T) S = true) ∧
    (∀ i, i < T.length → searchB (cjk_fuzzy_pattern T) (T.eraseIdx i) = false) := by
  refine ⟨?_, ?_, ?_⟩
  · rw [pattern_of_cjk hcjk]
    apply List.any_eq_true.mpr
    exact ⟨T, (List.mem_tails _ _).mpr (List.suffix_refl T),
      insWs_matchPre (insWs_refl T) hcjk⟩
  · intro S hins
    rw [pattern_of_cjk hcjk]
    apply List.any_eq_true.mpr
    exact ⟨S, (List.mem_tails _ _).mpr (List.suffix_refl S), insWs_matchPre hins hcjk⟩
  · intro i hi
    rw [pattern_of_cjk hcjk]
    cases hsearch : searchB (T.map PatItem.cjkStar) (T.eraseIdx i) with
    | false => rfl
    | true =>
      exfalso
      simp only [searchB] at hsearch
      obtain ⟨s', hs', hm⟩ := List.any_eq_true.mp hsearch
      have hcount := matchPre_cjk_count hcjk s' hm
      have hsub : s'.Sublist (T.eraseIdx i) := ((List.mem_tails _ _).mp hs').sublist
      have hflen : (s'.filter (fun c => !isSpaceB c)).length ≤ (T.eraseIdx i).length := by
        calc (s'.filter (fun c => !isSpaceB c)).length
            ≤ s'.length := List.length_filter_le _ _
          _ ≤ (T.eraseIdx i).length := hsub.length_le
      have hlen : (T.eraseIdx i).length = T.length - 1 := by
        rw [List.length_eraseIdx]
        simp [hi]
      omega

/-- Closed instance of `c1_cjk_fuzzy_tolerance` at the token 電腦 with its
hypotheses discharged by computation. -/
theorem c1_cjk_fuzzy_tolerance_witness :
    searchB (cjk_fuzzy_pattern (pyStr "電腦")) (pyStr "電腦") = true ∧
    searchB (cjk_fuzzy_pattern (pyStr "電腦")) ((pyStr "電腦").eraseIdx 0) = false := by
  refine ⟨(c1_cjk_fuzzy_tolerance (pyStr "電腦") (by decide)).1, ?_⟩
  exact (c1_cjk_fuzzy_tolerance (pyStr "電腦") (by decide)).2.2 0 (by decide)

/-!
## Deduplication (pandas `drop_duplicates(subset=..., keep="first")`)

Every termbase path ends in `df.drop_duplicates(subset=["en_canonical",
"zh_canonical","abbr"])`.  `dedupBy` is that operation on embedded tables:
keep a row exactly when its key has not occurred on an earlier row.
-/

/-- Worker of `dedupBy`: `seen` holds the keys of rows already kept. -/
def dedupSeen {α β : Type} (key : α → β) [DecidableEq β] : List β → List α → List α
  | _, [] => []
  | seen, x :: r =>
    if key x ∈ seen then dedupSeen key seen r
    else x :: dedupSeen key (key x :: seen) r

/-- Pandas `drop_duplicates` on the given key, keeping first occurrences. -/
def dedupBy {α β : Type} (key : α → β) [DecidableEq β] (l : List α) : List α :=
  dedupSeen key [] l

lemma mem_of_mem_dedupSeen {α β : Type} {key : α → β} [DecidableEq β]
    {seen : List β} {l : List α} {x : α} (h : x ∈ dedupSeen key seen l) : x ∈ l := by
  induction l generalizing seen with
  | nil => simp [dedupSeen] at h
  | cons a r ih =>
    simp only [dedupSeen] at h
    split at h
    · exact List.mem_cons_of_mem a (ih h)
    · rcases List.mem_cons.mp h with h | h
      · exact h ▸ List.mem_cons_self a r
      · exact List.mem_cons_of_mem a (ih h)

lemma key_not_seen_of_mem_dedupSeen {α β : Type} {key : α → β} [DecidableEq β]
    {seen : List β} {l : List α} {x : α} (h : x ∈ dedupSeen key seen l) :
    key x ∉ seen := by
  induction l generalizing seen with
  | nil => simp [dedupSeen] at h
  | cons a r ih =>
    simp only [dedupSeen] at h
    split at h
    · exact ih h
    · rcases List.mem_cons.mp h with h | h
      · subst h; assumption
      · intro hmem
        exact ih h (List.mem_cons_of_mem _ hmem)

lemma pairwise_dedupSeen {α β : Type} (key : α → β) [DecidableEq β]
    (seen : List β) (l : List α) :
    (dedupSeen key seen l).Pairwise (fun a b => key a ≠ key b) := by
  induction l generalizing seen with
  | nil => exact List.Pairwise.nil
  | cons a r ih =>
    simp only [dedupSeen]
    split
    · exact ih seen
    · refine List.Pairwise.cons ?_ (ih (key a :: seen))
      intro y hy heq
      exact key_not_seen_of_mem_dedupSeen hy (heq ▸ List.mem_cons_self _ _)

lemma dedupSeen_eq_self {α β : Type} {key : α → β} [DecidableEq β]
    {seen : List β} {l : List α}
    (hpw : l.Pairwise (fun a b => key a ≠ key b))
    (hseen : ∀ x ∈ l, key x ∉ seen) :
    dedupSeen key seen l = l := by
  induction l generalizing seen with
  | nil => rfl
  | cons a r ih =>
    have ha : key a ∉ seen := hseen a (List.mem_cons_self _ _)
    simp only [dedupSeen]
    rw [if_neg ha]
    congr 1
    refine ih (List.Pairwise.sublist (List.sublist_cons_self a r) hpw) ?_
    intro x hx
    intro hmem
    rcases List.mem_cons.mp hmem with h | h
    · exact (List.pairwise_cons.mp hpw).1 x hx h.symm
    · exact hseen x (List.mem_cons_of_mem a hx) h

lemma mem_dedupSeen_iff {α β : Type} {key : α → β} [DecidableEq β]
    {seen : List β} {l : List α} {x : α} :
    x ∈ dedupSeen key seen l ↔
      key x ∉ seen ∧ ∃ pre post, l = pre ++ x :: post ∧ ∀ y ∈ pre, key y ≠ key x := by
  constructor
  · intro h
    refine ⟨key_not_seen_of_mem_dedupSeen h, ?_⟩
    induction l generalizing seen with
    | nil => simp [dedupSeen] at h
    | cons a r ih =>
      simp only [dedupSeen] at h
      split at h
      · next hin =>
        obtain ⟨pre, post, hsplit, hpre⟩ := ih h
        refine ⟨a :: pre, post, by simp [hsplit], ?_⟩
        intro y hy
        rcases List.mem_cons.mp hy with h' | h'
        · subst h'
          intro heq
          exact key_not_seen_of_mem_dedupSeen h (heq ▸ hin)
        · exact hpre y h'
      · next hin =>
        rcases List.mem_cons.mp h with h' | h'
        · subst h'
          exact ⟨[], r, rfl, by simp⟩
        · obtain ⟨pre, post, hsplit, hpre⟩ := ih h'
          have hne : key x ≠ key a := by
            intro heq
            exact key_not_seen_of_mem_dedupSeen h' (heq ▸ List.mem_cons_self _ _)
          refine ⟨a :: pre, post, by simp [hsplit], ?_⟩
          intro y hy
          rcases List.mem_cons.mp hy with h'' | h''
          · subst h''; exact fun heq => hne heq.symm
          · exact hpre y h''
  · rintro ⟨hns, pre, post, rfl, hpre⟩
    induction pre generalizing seen with
    | nil =>
      simp only [List.nil_append, dedupSeen, hns, if_neg hns]
      exact List.mem_cons_self _ _
    | cons a pre ih =>
      simp only [List.cons_append, dedupSeen]
      split
      · exact ih hns (fun y hy => hpre y (List.mem_cons_of_mem a hy))
      · refine List.mem_cons_of_mem a (ih ?_ (fun y hy => hpre y (List.mem_cons_of_mem a hy)))
        intro hmem
        rcases List.mem_cons.mp hmem with h | h
        · exact hpre a (List.mem_cons_self _ _) h.symm
        · exact hns h

lemma dedupBy_idem {α β : Type} (key : α → β) [DecidableEq β] (l : List α) :
    dedupBy key (dedupBy key l) = dedupBy key l :=
  dedupSeen_eq_self (pairwise_dedupSeen key [] l) (by simp)

/-!
## Term table normalizer

`app_streamlit_super.py` lines 63-72 (= `app_streamlit_auto_plus.py` lines
33-44, `app_streamlit_gsheets.py` lines 30-40): `standardize_master` strips
every canonical column as text, replaces an empty `first_mention_style` by
`"ZH(EN;ABBR)"`, and drops duplicate `(en_canonical, zh_canonical, abbr)`
triples keeping the first occurrence.  A table is a list of rows over the
fixed `REQUIRED_COLS` schema (absent input columns arrive as `""` cells,
which is what `df[c] = ""` produces).
-/

/-- One termbase row over `REQUIRED_COLS = [en_canonical, zh_canonical, abbr,
first_mention_style, variant (錯誤用法)]`. -/
structure Row where
  en : PyStr
  zh : PyStr
  abbr : PyStr
  first_mention_style : PyStr
  variant : PyStr
deriving DecidableEq

/-- The default first-mention style `"ZH(EN;ABBR)"`. -/
def defaultStyle : PyStr := pyStr "ZH(EN;ABBR)"

/-- The `(en_canonical, zh_canonical, abbr)` key of `drop_duplicates`. -/
def rowKey (r : Row) : PyStr × PyStr × PyStr := (r.en, r.zh, r.abbr)

/-- Per-row effect of `standardize_master` before deduplication: the
`.str.strip()` of every column, then the empty-style default fill. -/
def procRow (r : Row) : Row :=
  ⟨pyStrip r.en, pyStrip r.zh, pyStrip r.abbr,
    (if pyStrip r.first_mention_style = [] then defaultStyle
     else pyStrip r.first_mention_style),
    pyStrip r.variant⟩

/-- Source `standardize_master`: strip all required columns, default the
empty first-mention style, drop duplicate key triples keeping the first. -/
def standardize_master (df : List Row) : List Row := dedupBy rowKey (df.map procRow)

lemma dropWhile_idem (p : Nat → Bool) (l : List Nat) :
    (l.dropWhile p).dropWhile p = l.dropWhile p := by
  induction l with
  | nil => rfl
  | cons a r ih =>
    by_cases h : p a = true
    · simp [List.dropWhile_cons, h, ih]
    · simp [List.dropWhile_cons, h]

lemma dropWhile_eq_self_of_prefix {p : Nat → Bool} {t u : List Nat}
    (ht : t.dropWhile p = t) (hu : u <+: t) : u.dropWhile p = u := by
  cases u with
  | nil => rfl
  | cons a u' =>
    cases t with
    | nil => simp at hu
    | cons b t' =>
      have hab : a = b := by
        obtain ⟨w, hw⟩ := hu
        exact (List.cons_eq_cons.mp (by simpa using hw)).1
      subst hab
      by_cases h : p a = true
      · exfalso
        rw [List.dropWhile_cons, if_pos h] at ht
        have hlen := congrArg List.length ht
        have hle : (t'.dropWhile p).length ≤ t'.length :=
          (List.dropWhile_sublist p).length_le
        simp only [List.length_cons] at hlen
        omega
      · simp [List.dropWhile_cons, h]

lemma pyStrip_idem (s : PyStr) : pyStrip (pyStrip s) = pyStrip s := by
  have hmain : ∀ v : PyStr, v.dropWhile isSpaceB = v →
      pyStrip ((v.reverse.dropWhile isSpaceB).reverse) =
        (v.reverse.dropWhile isSpaceB).reverse := by
    intro v hv
    set u := (v.reverse.dropWhile isSpaceB).reverse with hu
    have hur : u.reverse = v.reverse.dropWhile isSpaceB := by
      rw [hu, List.reverse_reverse]
    have hpre : u <+: v := by
      rw [← List.reverse_suffix]
      rw [hur]
      exact List.dropWhile_suffix isSpaceB
    have hfront : u.dropWhile isSpaceB = u := dropWhile_eq_self_of_prefix hv hpre
    have hback : u.reverse.dropWhile isSpaceB = u.reverse := by
      rw [hur]
      exact dropWhile_idem _ _
    unfold pyStrip
    rw [hfront, hback, List.reverse_reverse]
  have h1 : (s.dropWhile isSpaceB).dropWhile isSpaceB = s.dropWhile isSpaceB :=
    dropWhile_idem _ _
  exact hmain (s.dropWhile isSpaceB) h1

lemma pyStrip_defaultStyle : pyStrip defaultStyle = defaultStyle := by decide

lemma defaultStyle_ne_nil : defaultStyle ≠ ([] : PyStr) := by decide

lemma procRow_idem (r : Row) : procRow (procRow r) = procRow r := by
  simp only [procRow]
  by_cases h : pyStrip r.first_mention_style = []
  · simp [h, pyStrip_defaultStyle, defaultStyle_ne_nil, pyStrip_idem]
  · simp [h, pyStrip_idem]

/-- C6: `standardize_master` is idempotent — normalizing a term table twice
gives the same table as normalizing it once. -/
theorem c6_standardize_master_idempotent (df : List Row) :
    standardize_master (standardize_master df) = standardize_master df := by
  unfold standardize_master
  have hfix : (dedupBy rowKey (df.map procRow)).map procRow
      = dedupBy rowKey (df.map procRow) := by
    have hcongr : ∀ x ∈ dedupBy rowKey (df.map procRow), procRow x = id x := by
      intro x hx
      have hx' : x ∈ df.map procRow := mem_of_mem_dedupSeen hx
      obtain ⟨y, _, hy⟩ := List.mem_map.mp hx'
      simp only [id_eq]
      rw [← hy, procRow_idem]
    rw [List.map_congr_left hcongr, List.map_id]
  rw [hfix]
  exact dedupBy_idem rowKey (df.map procRow)

/-- The stored-schema header row `REQUIRED_COLS` of
`app_streamlit_super.py` line 63. -/
def headerCells : List PyStr :=
  [pyStr "en_canonical", pyStr "zh_canonical", pyStr "abbr",
   pyStr "first_mention_style", pyStr "variant (錯誤用法)"]

/-- The cell list of one row in stored column order. -/
def rowCells (r : Row) : List PyStr :=
  [r.en, r.zh, r.abbr, r.first_mention_style, r.variant]

/-- Source `write_master_to_ws` (`app_streamlit_super.py` lines 97-100): the
values written to the sheet are the header row followed by the rows of the
re-standardized table (`save_local_master` writes the same rows to the CSV,
its callers standardizing first). -/
def write_master_values (df : List Row) : List (List PyStr) :=
  headerCells :: (standardize_master df).map rowCells

/-- C7: normalization keeps exactly the first of two rows with equal
`(en_canonical, zh_canonical, abbr)` triples — in general a processed row
survives exactly when no earlier row shares its key triple — every
normalized table has pairwise-distinct triples, and so does every table
written to the store. -/
theorem c7_unique_triple_invariant :
    (∀ df : List Row,
      (standardize_master df).Pairwise (fun r s => rowKey r ≠ rowKey s)) ∧
    (∀ r s : Row, rowKey (procRow r) = rowKey (procRow s) →
      standardize_master [r, s] = [procRow r]) ∧
    (∀ (df : List Row) (x : Row),
      x ∈ standardize_master df ↔
        ∃ pre post, df.map procRow = pre ++ x :: post ∧
          ∀ y ∈ pre, rowKey y ≠ rowKey x) ∧
    (∀ df : List Row,
      ((write_master_values df).drop 1).Pairwise
        (fun a b => a.take 3 ≠ b.take 3)) := by
  have hpw : ∀ df : List Row,
      (standardize_master df).Pairwise (fun r s => rowKey r ≠ rowKey s) :=
    fun df => pairwise_dedupSeen rowKey [] (df.map procRow)
  refine ⟨hpw, ?_, fun df x => by
    simpa using
      (@mem_dedupSeen_iff Row (PyStr × PyStr × PyStr) rowKey _ []
        (df.map procRow) x), ?_⟩
  · intro r s heq
    simp [standardize_master, dedupBy, dedupSeen, heq]
  · intro df
    simp only [write_master_values, List.drop_succ_cons, List.drop_zero]
    rw [List.pairwise_map]
    refine (hpw df).imp ?_
    intro a b hne hcells
    refine hne ?_
    have ha : (rowCells a).take 3 = [a.en, a.zh, a.abbr] := rfl
    have hb : (rowCells b).take 3 = [b.en, b.zh, b.abbr] := rfl
    rw [ha, hb] at hcells
    simp only [List.cons.injEq, and_true] at hcells
    simp [rowKey, hcells.1, hcells.2.1, hcells.2.2]

/-- Closed instance of the two-row branch of `c7_unique_triple_invariant`:
two rows equal on the key triple but different in the variant column
normalize to the first row alone. -/
theorem c7_unique_triple_invariant_witness :
    standardize_master
      [⟨pyStr "CT", pyStr "電腦斷層", [], defaultStyle, pyStr "CT 掃描"⟩,
       ⟨pyStr "CT", pyStr "電腦斷層", [], defaultStyle, pyStr "斷層掃描"⟩]
      = [procRow ⟨pyStr "CT", pyStr "電腦斷層", [], defaultStyle, pyStr "CT 掃描"⟩] :=
  c7_unique_triple_invariant.2.1 _ _ (by decide)

/-!
## Diff engine

`app_streamlit_auto_extract.py` lines 487-528, `detect_differences`: the
extracted and stored tables are projected to their
`(en_canonical, zh_canonical, abbr)` columns; "new items" is the left-merge
indicator filter (`_merge == "left_only"`), the conflicts are the inner
merges on `en_canonical` alone and on `zh_canonical` alone filtered to rows
whose other column differs (`detect_differences_with_location`, lines
530-605, builds the same pair lists and only adds location/status columns to
each record).
-/

/-- A `(en_canonical, zh_canonical, abbr)` projection row. -/
structure Triple where
  en : PyStr
  zh : PyStr
  abbr : PyStr
deriving DecidableEq

/-- One record of the `potential_errors` list of `detect_differences`. -/
inductive Conflict where
  | enConf (en zhExt zhTerm abbrExt abbrTerm : PyStr)
  | zhConf (zh enExt enTerm abbrExt abbrTerm : PyStr)
deriving DecidableEq

/-- Left-merge on the full triple with indicator, keeping `left_only` rows:
an extracted row is new when no stored row equals it on all three columns. -/
def new_items (ext tb : List Triple) : List Triple :=
  ext.filter (fun x => !(tb.any (fun t => decide (t = x))))

/-- Inner merge of the two tables on `en_canonical` followed by the
`zh_canonical_ext != zh_canonical_term` filter and record construction. -/
def en_conflicts (ext tb : List Triple) : List Conflict :=
  (ext.flatMap (fun x => (tb.filter (fun t => decide (t.en = x.en))).map (fun t => (x, t)))).filterMap
    (fun p => if p.1.zh ≠ p.2.zh then
        some (.enConf p.1.en p.1.zh p.2.zh p.1.abbr p.2.abbr)
      else none)

/-- Inner merge on `zh_canonical` followed by the
`en_canonical_ext != en_canonical_term` filter and record construction. -/
def zh_conflicts (ext tb : List Triple) : List Conflict :=
  (ext.flatMap (fun x => (tb.filter (fun t => decide (t.zh = x.zh))).map (fun t => (x, t)))).filterMap
    (fun p => if p.1.en ≠ p.2.en then
        some (.zhConf p.1.zh p.1.en p.2.en p.1.abbr p.2.abbr)
      else none)

/-- Source `detect_differences`: the new items and the concatenated conflict
records (English-key conflicts first, as the Python appends). -/
def detect_differences (ext tb : List Triple) : List Triple × List Conflict :=
  (new_items ext tb, en_conflicts ext tb ++ zh_conflicts ext tb)

/-- C4: the diff engine classifies as new exactly the extracted triples
absent from the table, reports one English-key conflict per (extracted,
stored) pair equal on English and different on Chinese and one Chinese-key
conflict per pair equal on Chinese and different on English; on the
spec's concrete instance the outputs are exactly `[(A,乙,"")]` and the one
conflict pairing 甲 and 乙. -/
theorem c4_detect_differences_spec :
    (∀ ext tb : List Triple, ∀ x,
      x ∈ (detect_differences ext tb).1 ↔ x ∈ ext ∧ x ∉ tb) ∧
    (∀ ext tb : List Triple, ∀ c,
      c ∈ (detect_differences ext tb).2 ↔
        ∃ x ∈ ext, ∃ t ∈ tb,
          (x.en = t.en ∧ x.zh ≠ t.zh ∧
            c = Conflict.enConf x.en x.zh t.zh x.abbr t.abbr) ∨
          (x.zh = t.zh ∧ x.en ≠ t.en ∧
            c = Conflict.zhConf x.zh x.en t.en x.abbr t.abbr)) ∧
    (detect_differences
        [⟨pyStr "A", pyStr "甲", []⟩, ⟨pyStr "A", pyStr "乙", []⟩]
        [⟨pyStr "A", pyStr "甲", []⟩]
      = ([⟨pyStr "A", pyStr "乙", []⟩],
         [Conflict.enConf (pyStr "A") (pyStr "乙") (pyStr "甲") [] []])) := by
  refine ⟨?_, ?_, by decide⟩
  · intro ext tb x
    constructor
    · intro hmem
      have h := List.mem_filter.mp hmem
      refine ⟨h.1, ?_⟩
      intro hxtb
      have h2 := h.2
      simp only [Bool.not_eq_true', List.any_eq_false, decide_eq_false_iff_not] at h2
      exact h2 x hxtb (by simp)
    · rintro ⟨hx, hnot⟩
      apply List.mem_filter.mpr
      refine ⟨hx, ?_⟩
      simp only [Bool.not_eq_true', List.any_eq_false, decide_eq_false_iff_not]
      intro t ht heq
      exact hnot ((of_decide_eq_true heq) ▸ ht)

  · intro ext tb c
    simp only [detect_differences, List.mem_append, en_conflicts, zh_conflicts,
      List.mem_filterMap, List.mem_flatMap, List.mem_map, List.mem_filter,
      decide_eq_true_eq]
    constructor
    · rintro (⟨p, ⟨x, hx, ⟨t, ⟨ht, hen⟩, rfl⟩⟩, hsome⟩ |
              ⟨p, ⟨x, hx, ⟨t, ⟨ht, hzh⟩, rfl⟩⟩, hsome⟩)
      · split at hsome
        · next hne =>
          refine ⟨x, hx, t, ht, Or.inl ⟨hen.symm, hne, ?_⟩⟩
          exact (Option.some.injEq _ _ ▸ hsome).symm
        · exact absurd hsome (by simp)
      · split at hsome
        · next hne =>
          refine ⟨x, hx, t, ht, Or.inr ⟨hzh.symm, hne, ?_⟩⟩
          exact (Option.some.injEq _ _ ▸ hsome).symm
        · exact absurd hsome (by simp)
    · rintro ⟨x, hx, t, ht, (⟨hen, hzh, rfl⟩ | ⟨hzh, hen, rfl⟩)⟩
      · left
        refine ⟨(x, t), ⟨x, hx, ⟨t, ⟨ht, hen.symm⟩, rfl⟩⟩, ?_⟩
        rw [if_pos hzh]
      · right
        refine ⟨(x, t), ⟨x, hx, ⟨t, ⟨ht, hzh.symm⟩, rfl⟩⟩, ?_⟩
        rw [if_pos hen]

/-!
## Consistency checker and first-mention check

`app_streamlit_plus.py` lines 144-198 and `app_streamlit_super.py` lines
236-279.  For each page both apps collect `en_hits` and `zh_hits` as
`(m.start(), m.end(), row)` triples of the located canonical-term regex
matches; a `Hit` is one such located occurrence.  The pair check walks the
English hits and searches the Chinese hits inside the window with a `found`
flag and `break`; the first-mention check threads a case-insensitive
seen-set across the whole scan.
-/

/-- One located occurrence `(m.start(), m.end(), row)`. -/
structure Hit where
  s : Nat
  e : Nat
  row : Row
deriving DecidableEq

/-- Python `abs(zs - es)` on two positions. -/
def absDiff (a b : Nat) : Nat := ((a : Int) - (b : Int)).natAbs

/-- One `MISSING_OR_WRONG_ZH` record. -/
structure PairIssue where
  page : Nat
  en : PyStr
  expected_zh : PyStr
  context : PyStr
deriving DecidableEq

/-- The inner `for zs, ze, zrow in zh_hits: ... break` loop: some Chinese hit
starts within the window of the English hit and its row's Chinese canonical
equals the expected one. -/
def nearExpectedZh (window : Nat) (zhHits : List Hit) (h : Hit) : Bool :=
  zhHits.any (fun z =>
    decide (absDiff z.s h.s ≤ window) && decide (z.row.zh = h.row.zh))

/-- The appended record, context `norm[max(0, es-window) : ee+window]`. -/
def mkPairIssue (window : Nat) (text : PyStr) (pno : Nat) (h : Hit) : PairIssue :=
  ⟨pno, h.row.en, h.row.zh, pySlice text (h.s - window) (h.e + window)⟩

/-- Source pair-proximity loop (`app_streamlit_plus.py` lines 157-175,
`app_streamlit_super.py` lines 244-256) on one page's located hits. -/
def check_pair_page (window : Nat) (text : PyStr) (pno : Nat)
    (enHits zhHits : List Hit) : List PairIssue :=
  enHits.foldl
    (fun acc h =>
      if nearExpectedZh window zhHits h then acc
      else acc ++ [mkPairIssue window text pno h]) []

lemma check_pair_page_foldl (window : Nat) (text : PyStr) (pno : Nat)
    (zhHits : List Hit) :
    ∀ (enHits : List Hit) (acc : List PairIssue),
      enHits.foldl
        (fun acc h =>
          if nearExpectedZh window zhHits h then acc
          else acc ++ [mkPairIssue window text pno h]) acc
      = acc ++ (enHits.filter
          (fun h => !(nearExpectedZh window zhHits h))).map
          (mkPairIssue window text pno) := by
  intro enHits
  induction enHits with
  | nil => intro acc; simp
  | cons h r ih =>
    intro acc
    cases hn : nearExpectedZh window zhHits h
    · simp only [List.foldl_cons]
      rw [if_neg (by simp [hn]), ih]
      simp [List.filter_cons, hn]
    · simp only [List.foldl_cons]
      rw [if_pos hn, ih]
      simp [List.filter_cons, hn]

/-- Leftmost-greedy match length of a `cjk_fuzzy_pattern` concatenation at
the head of the input, as the backtracking `re` engine computes it: each
`\s*` prefers the longest skip (`wsSkips` reversed), each `\s+` takes one
whitespace character and then behaves like `\s*`. -/
def matchEnd : List PatItem → List Nat → Option Nat
  | [], _ => some 0
  | .lit _ :: _, [] => none
  | .lit c :: ps, a :: r => if chEq a c then (matchEnd ps r).map (· + 1) else none
  | .cjkStar _ :: _, [] => none
  | .cjkStar c :: ps, a :: r =>
    if chEq a c then
      ((wsSkips r).reverse).findSome?
        (fun p => (matchEnd ps p.2).map (fun n => p.1 + 1 + n))
    else none
  | .wsPlus :: _, [] => none
  | .wsPlus :: ps, a :: r =>
    if isSpaceB a then
      ((wsSkips r).reverse).findSome?
        (fun p => (matchEnd ps p.2).map (fun n => p.1 + 1 + n))
    else none
  | .hyphen :: ps, s =>
    ((wsSkips s).reverse).findSome? (fun p =>
      match p.2 with
      | [] => none
      | h :: r =>
        if h == 0x2D then
          ((wsSkips r).reverse).findSome?
            (fun q => (matchEnd ps q.2).map (fun n => p.1 + 1 + q.1 + n))
        else none)

/-- Fuelled `finditer` over a `PatItem` pattern: scan positions left to
right, emit each (start, end), resume at the match end (or one further on a
zero-width match).  Fuel `|text| + 1` suffices: the position strictly grows. -/
def findIterPGo (pat : List PatItem) (text : PyStr) : Nat → Nat → List (Nat × Nat)
  | _, 0 => []
  | pos, fuel + 1 =>
    if pos > text.length then []
    else
      match matchEnd pat (text.drop pos) with
      | some len =>
        (pos, pos + len) ::
          findIterPGo pat text (if len = 0 then pos + 1 else pos + len) fuel
      | none => findIterPGo pat text (pos + 1) fuel

/-- The `rx.finditer(norm)` match list of one variant pattern. -/
def findIterP (pat : List PatItem) (text : PyStr) : List (Nat × Nat) :=
  findIterPGo pat text 0 (text.length + 1)

/-- The compiled canonical-English pattern
`re.escape(en).replace(r'\-', r'\s*-\s*')` with `re.IGNORECASE`
(`app_streamlit_plus.py` line 101, `app_streamlit_super.py` line 231):
every character literal except a hyphen, which tolerates spacing. -/
def en_lit_pattern (en : PyStr) : List PatItem :=
  en.map (fun c => if c == 0x2D then PatItem.hyphen else PatItem.lit c)

/-- The page's `en_hits`: for each row with a non-empty stripped English
canonical, every `finditer` occurrence of its compiled pattern. -/
def page_en_hits (termbase : List Row) (text : PyStr) : List Hit :=
  (termbase.filter (fun r => !(pyStrip r.en).isEmpty)).flatMap (fun r =>
    (findIterP (en_lit_pattern r.en) text).map (fun m => ⟨m.1, m.2, r⟩))

/-- The page's `zh_hits`: every located occurrence of each non-empty Chinese
canonical's fuzzy pattern. -/
def page_zh_hits (termbase : List Row) (text : PyStr) : List Hit :=
  (termbase.filter (fun r => !(pyStrip r.zh).isEmpty)).flatMap (fun r =>
    (findIterP (cjk_fuzzy_pattern r.zh) text).map (fun m => ⟨m.1, m.2, r⟩))

/-- C2: on each page the pair check emits exactly one missing-or-wrong-Chinese
record per located English occurrence without a window-near occurrence of the
expected Chinese canonical; a lone occurrence yields exactly one record iff no
expected-Chinese hit starts within the window (a nearby hit of a different
Chinese text does not suppress it, since the condition compares against the
occurrence's own expected Chinese). -/
theorem c2_pair_consistency_window :
    (∀ (window : Nat) (text : PyStr) (pno : Nat) (enHits zhHits : List Hit),
      check_pair_page window text pno enHits zhHits
        = (enHits.filter (fun h => !(nearExpectedZh window zhHits h))).map
            (mkPairIssue window text pno)) ∧
    (∀ (window : Nat) (text : PyStr) (pno : Nat) (termbase : List Row),
      check_pair_page window text pno
          (page_en_hits termbase text) (page_zh_hits termbase text)
        = ((page_en_hits termbase text).filter
            (fun h => !(nearExpectedZh window (page_zh_hits termbase text) h))).map
            (mkPairIssue window text pno)) ∧
    (∀ (window : Nat) (text : PyStr) (pno : Nat) (zhHits : List Hit) (h : Hit),
      check_pair_page window text pno [h] zhHits
          = [mkPairIssue window text pno h] ↔
        ¬ ∃ z ∈ zhHits, absDiff z.s h.s ≤ window ∧ z.row.zh = h.row.zh) := by
  have hchar := check_pair_page_foldl
  refine ⟨fun w text pno enHits zhHits => by
    simpa using hchar w text pno zhHits enHits [],
    fun w text pno termbase => by
      simpa using hchar w text pno (page_zh_hits termbase text)
        (page_en_hits termbase text) [], ?_⟩
  intro w text pno zhHits h
  have hany : nearExpectedZh w zhHits h = true ↔
      ∃ z ∈ zhHits, absDiff z.s h.s ≤ w ∧ z.row.zh = h.row.zh := by
    simp [nearExpectedZh, List.any_eq_true]
  cases hn : nearExpectedZh w zhHits h
  · simp only [check_pair_page, List.foldl_cons, List.foldl_nil]
    rw [if_neg (by simp [hn])]
    simp only [List.nil_append, true_iff]
    rw [← hany]
    simp [hn]
  · simp only [check_pair_page, List.foldl_cons, List.foldl_nil]
    rw [if_pos hn]
    constructor
    · intro habs
      exact absurd habs (by simp)
    · intro hno
      exact absurd (hany.mp hn) hno

/-- One `FIRST_MENTION_MISSING_ZH` record. -/
structure FirstIssue where
  page : Nat
  en : PyStr
  expected_zh : PyStr
  abbr : PyStr
  context : PyStr
deriving DecidableEq

/-- The `fmt.upper().startswith("ZH(")` test of both first-mention loops. -/
def styleRequiresZh (st : PyStr) : Bool := (pyStr "ZH(").isPrefixOf (pyUpper st)

/-- One page of a scan, with the located English and Chinese hits the apps
compute for it. -/
structure PageScan where
  pno : Nat
  text : PyStr
  enHits : List Hit
  zhHits : List Hit
deriving DecidableEq

/-- Body of the first-mention loop of `app_streamlit_plus.py` lines 180-198
for one English hit: skip keys already seen, otherwise record the key and —
when the configured style starts with `ZH(` — require the expected Chinese
within the window, emitting a record if absent. -/
def check_first_step (window : Nat) (text : PyStr) (pno : Nat) (zhHits : List Hit)
    (st : List PyStr × List FirstIssue) (h : Hit) : List PyStr × List FirstIssue :=
  let key := pyLower h.row.en
  if key ∈ st.1 then st
  else
    let seen := key :: st.1
    if styleRequiresZh h.row.first_mention_style then
      if nearExpectedZh window zhHits h then (seen, st.2)
      else
        (seen, st.2 ++ [⟨pno, h.row.en, h.row.zh, h.row.abbr,
          pySlice text (h.s - window) (h.e + window)⟩])
    else (seen, st.2)

/-- The per-page first-mention pass over the page's English hits. -/
def check_first_page (window : Nat) (pg : PageScan)
    (st : List PyStr × List FirstIssue) : List PyStr × List FirstIssue :=
  pg.enHits.foldl (check_first_step window pg.text pg.pno pg.zhHits) st

/-- Source first-mention check of `app_streamlit_plus.py`: thread the
seen-set across all pages, starting empty. -/
def check_first (window : Nat) (pages : List PageScan) : List FirstIssue :=
  (pages.foldl (fun st pg => check_first_page window pg st) ([], [])).2

/-- Modelled from `app_streamlit_super.py` lines 261-279.  There the loop
reads `for rx,row in en_pats`, so `row` is the termbase row itself, yet the
body computes `key=row[1]["en_canonical"].lower()`: `row[1]` positionally
selects the row's second column — the `zh_canonical` string — and
subscripting a Python `str` with a string key raises
`TypeError: string indices must be integers`.  The loop therefore raises at
the first located English hit of the scan and emits nothing otherwise. -/
def superFirstMentions (pages : List PageScan) : Except PyStr (List FirstIssue) :=
  if pages.all (fun pg => pg.enHits.isEmpty) then .ok []
  else .error (pyStr "TypeError: string indices must be integers")

/-- The canonical record English=CT, Chinese=電腦斷層 used by the spec's
consistency examples. -/
def ctRow : Row := ⟨pyStr "CT", pyStr "電腦斷層", [], pyStr "ZH(EN;ABBR)", []⟩

/-- A page whose text is just `CT`, with its one located English hit and no
Chinese hit. -/
def ctPage : PageScan := ⟨1, pyStr "CT", [⟨0, 2, ctRow⟩], []⟩

/-- C3 (code evidence): on a first located occurrence of `CT`
(style `ZH(EN;ABBR)`, no expected Chinese in the window) the
`app_streamlit_super.py` first-mention loop raises a TypeError instead of
checking anything, while the `app_streamlit_plus.py` loop emits exactly the
one claimed first-mention record, and a second occurrence of the same term
on a later page adds nothing. -/
theorem c3_first_mention_super_vs_plus :
    superFirstMentions [ctPage]
        = .error (pyStr "TypeError: string indices must be integers") ∧
    check_first 80 [ctPage]
        = [⟨1, pyStr "CT", pyStr "電腦斷層", [], pyStr "CT"⟩] ∧
    check_first 80 [ctPage, ⟨2, pyStr "CT", [⟨0, 2, ctRow⟩], []⟩]
        = [⟨1, pyStr "CT", pyStr "電腦斷層", [], pyStr "CT"⟩] := by
  refine ⟨rfl, by decide, by decide⟩

/-!
## Variant-list splitting

`pdf_spellcheck.py` lines 80-83 and `app_streamlit_plus.py` lines 36-39:
`split_variants` returns `[]` for a non-string cell, else splits the stripped
cell on `re.split(r'[,，;/、]+', ...)` — runs of the five delimiters —
and keeps the truthy (non-empty) parts.
-/

/-- The delimiter class `[,，;/、]`. -/
def isDelim (c : Nat) : Bool :=
  c == 0x2C || c == 0xFF0C || c == 0x3B || c == 0x2F || c == 0x3001

/-- Fuelled worker of `re.split` on delimiter runs; `cur` is the reversed
accumulator of the current part.  The fuel `|s| + 1` always suffices since
every step consumes at least one character. -/
def splitDelimGo : Nat → List Nat → List Nat → List (List Nat)
  | 0, cur, _ => [cur.reverse]
  | _ + 1, cur, [] => [cur.reverse]
  | f + 1, cur, c :: r =>
    if isDelim c then cur.reverse :: splitDelimGo f [] (r.dropWhile isDelim)
    else splitDelimGo f (c :: cur) r

/-- Python `re.split(r'[,，;/、]+', s)`. -/
def pySplitDelims (s : PyStr) : List PyStr := splitDelimGo (s.length + 1) [] s

/-- Source `split_variants`; a `none` cell is the non-`str` (NaN) case. -/
def split_variants : Option PyStr → List PyStr
  | none => []
  | some cell => (pySplitDelims (pyStrip cell)).filter (fun p => !p.isEmpty)

lemma isSpaceB_false_of_delim {c : Nat} (h : isDelim c = true) : isSpaceB c = false := by
  simp only [isDelim, Bool.or_eq_true, beq_iff_eq] at h
  simp only [isSpaceB, wsChars, List.mem_cons, List.not_mem_nil, or_false,
    decide_eq_false_iff_not]
  omega

lemma dropWhile_delim_nil {s : List Nat} (h : ∀ c ∈ s, isDelim c = true) :
    s.dropWhile isDelim = [] := by
  induction s with
  | nil => rfl
  | cons a r ih =>
    rw [List.dropWhile_cons, if_pos (h a (by simp))]
    exact ih (fun c hc => h c (by simp [hc]))

lemma splitDelimGo_all_delim (f : Nat) (s : List Nat)
    (h : ∀ c ∈ s, isDelim c = true) :
    ∀ p ∈ splitDelimGo f [] s, p = [] := by
  cases f with
  | zero => intro p hp; simpa [splitDelimGo] using hp
  | succ f =>
    cases s with
    | nil => intro p hp; simpa [splitDelimGo] using hp
    | cons c r =>
      intro p hp
      simp only [splitDelimGo, if_pos (h c (by simp))] at hp
      rw [dropWhile_delim_nil (fun x hx => h x (by simp [hx]))] at hp
      rcases List.mem_cons.mp hp with h' | h'
      · simpa using h'
      · cases f with
        | zero => simpa [splitDelimGo] using h'
        | succ f => simpa [splitDelimGo] using h'

/-- C10: `split_variants` never returns an empty entry (leading, trailing or
consecutive delimiters contribute nothing), a non-string cell gives `[]`, and
a cell that is all delimiters gives `[]` — so a blank variant cell never
reaches the pattern compiler (where an empty token would compile to a regex
matching at every position). -/
theorem c10_split_variants_no_empty :
    (∀ (cell : Option PyStr) (p : PyStr), p ∈ split_variants cell → p ≠ []) ∧
    split_variants none = [] ∧
    (∀ s : PyStr, (∀ c ∈ s, isDelim c = true) → split_variants (some s) = []) := by
  refine ⟨?_, rfl, ?_⟩
  · intro cell p hp
    cases cell with
    | none => simp [split_variants] at hp
    | some s =>
      simp only [split_variants, List.mem_filter, Bool.not_eq_true',
        List.isEmpty_eq_false] at hp
      exact hp.2
  · intro s hall
    have hstrip : pyStrip s = s := by
      unfold pyStrip
      rw [dropWhile_eq_self_of_none
          (fun c hc => isSpaceB_false_of_delim (hall c hc)),
        dropWhile_eq_self_of_none
          (fun c hc => isSpaceB_false_of_delim (hall c (List.mem_reverse.mp hc))),
        List.reverse_reverse]
    simp only [split_variants, hstrip]
    apply List.filter_eq_nil_iff.mpr
    intro p hp
    have := splitDelimGo_all_delim (s.length + 1) s hall p hp
    simp [this]

/-- Closed instance of `c10_split_variants_no_empty` on an all-delimiter
cell, its hypothesis discharged by computation. -/
theorem c10_split_variants_no_empty_witness :
    split_variants (some (pyStr ",,、/")) = [] :=
  c10_split_variants_no_empty.2.2 (pyStr ",,、/") (by decide)

/-!
## Text normalizer and variant scan

`normalize_text` (`pdf_spellcheck.py` lines 59-67 and identically in the
apps): full-width punctuation to ASCII, the five zero-width code points
removed, whitespace runs collapsed to one space.  `scan`
(`pdf_spellcheck.py` lines 95-112): per page, `page.extract_text()` is
guarded by `try/except` with `or ""` — a raising page or a `None` result
both scan as empty text — and every compiled variant pattern is run over
the normalized page text with `finditer`.
-/

/-- The `.replace` chain of `normalize_text`: （）；，。、 to `();,./`. -/
def fwReplace (c : Nat) : Nat :=
  if c == 0xFF08 then 0x28
  else if c == 0xFF09 then 0x29
  else if c == 0xFF1B then 0x3B
  else if c == 0xFF0C then 0x2C
  else if c == 0x3002 then 0x2E
  else if c == 0x3001 then 0x2F
  else c

/-- The `ZERO_WIDTH` constant: U+200B, U+200C, U+200D, U+FEFF, U+00AD. -/
def zeroWidth : List Nat := [0x200B, 0x200C, 0x200D, 0xFEFF, 0xAD]

/-- Worker of `re.sub(r'\s+', ' ', s)`: the flag records that the previous
character was inside a whitespace run already replaced by one space. -/
def collapseWsGo : Bool → List Nat → List Nat
  | _, [] => []
  | inRun, c :: r =>
    if isSpaceB c then
      if inRun then collapseWsGo true r else 0x20 :: collapseWsGo true r
    else c :: collapseWsGo false r

/-- Source `normalize_text`. -/
def normalize_text (s : PyStr) : PyStr :=
  collapseWsGo false ((s.map fwReplace).filter (fun c => !decide (c ∈ zeroWidth)))

/-- One row of the report `scan` builds (`pdf_spellcheck.py` lines 104-111). -/
structure ScanHit where
  page : Nat
  variant : PyStr
  zh : PyStr
  en : PyStr
  abbr : PyStr
  first_mention_style : PyStr
  context : PyStr
deriving DecidableEq

/-- What one page's `try: raw = page.extract_text() or "" / except: raw = ""`
yields: a raising extractor and a `None` or empty result all give `""`. -/
def extractedRaw : Except PyStr (Option PyStr) → PyStr
  | .error _ => []
  | .ok none => []
  | .ok (some s) => s

/-- The inner double loop of `scan` on one page: each compiled
`(pattern, variant, row)` is run over the normalized text, one hit record
per `finditer` match, context `norm[max(0, start-60) : end+60]`. -/
def pageHits (pats : List (List PatItem × PyStr × Row)) (pno : Nat)
    (norm : PyStr) : List ScanHit :=
  pats.flatMap (fun pvr =>
    (findIterP pvr.1 norm).map (fun m =>
      ⟨pno, pvr.2.1, pvr.2.2.zh, pvr.2.2.en, pvr.2.2.abbr,
        pvr.2.2.first_mention_style, pySlice norm (m.1 - 60) (m.2 + 60)⟩))

/-- Page enumeration `enumerate(reader.pages, start=1)`. -/
def enumFrom {α : Type} : Nat → List α → List (Nat × α)
  | _, [] => []
  | n, x :: r => (n, x) :: enumFrom (n + 1) r

/-- Source `scan`: normalize each page's extracted text and collect every
variant-pattern hit with its page number. -/
def scan (pats : List (List PatItem × PyStr × Row))
    (pages : List (Except PyStr (Option PyStr))) : List ScanHit :=
  (enumFrom 1 pages).flatMap
    (fun pp => pageHits pats pp.1 (normalize_text (extractedRaw pp.2)))

lemma scan_congr_at (pats : List (List PatItem × PyStr × Row))
    (x y : Except PyStr (Option PyStr)) (hxy : extractedRaw x = extractedRaw y) :
    ∀ (pre : List (Except PyStr (Option PyStr))) (n : Nat)
      (post : List (Except PyStr (Option PyStr))),
      (enumFrom n (pre ++ x :: post)).flatMap
          (fun pp => pageHits pats pp.1 (normalize_text (extractedRaw pp.2)))
        = (enumFrom n (pre ++ y :: post)).flatMap
            (fun pp => pageHits pats pp.1 (normalize_text (extractedRaw pp.2))) := by
  intro pre
  induction pre with
  | nil =>
    intro n post
    simp only [List.nil_append, enumFrom, List.flatMap_cons, hxy]
  | cons a pre ih =>
    intro n post
    simp only [List.cons_append, enumFrom, List.flatMap_cons]
    exact congrArg
      (pageHits pats n (normalize_text (extractedRaw a)) ++ ·) (ih (n + 1) post)

/-- C9: a page whose text extraction raises is scanned exactly as a page
that genuinely contains no text (whether the extractor had returned `""` or
`None`): the hit list of the whole scan — in particular of every other
page — is unchanged, and the error never leaves the per-page handler. -/
theorem c9_scan_extraction_error_isolated
    (pats : List (List PatItem × PyStr × Row))
    (pre post : List (Except PyStr (Option PyStr))) (err : PyStr) :
    scan pats (pre ++ .error err :: post)
        = scan pats (pre ++ .ok (some []) :: post) ∧
    scan pats (pre ++ .error err :: post)
        = scan pats (pre ++ .ok none :: post) := by
  exact ⟨scan_congr_at pats (.error err) (.ok (some [])) rfl pre 1 post,
    scan_congr_at pats (.error err) (.ok none) rfl pre 1 post⟩

/-!
## Backtracking regex engine for the extraction patterns

`parse_pdf_pairs` (`app_streamlit_auto_extract.py` lines 442-485, the
3-pattern variants in `app_streamlit_gsheets.py` / `app_streamlit_super.py` /
`app_streamlit_auto_plus.py` are its prefix) and `en_tokens` compile regexes
built from single-character classes with bounded greedy repetition, one
prioritized alternation, and named groups.  `RItem` embeds exactly those
constructs; `matchItems` is the standard prioritized backtracking matcher
(greedy quantifiers try the longest count first, alternation tries the left
branch first) — the semantics of Python's `re` on these patterns.  The
matcher is fuelled; the fuel only bounds the depth of one sequential match
attempt, which never exceeds the expanded pattern length, so `1000` is far
beyond what any pattern here can consume.
-/

/-- One regex construct: a character class with greedy counted repetition
`{lo,hi}` (`hi = none` is unbounded `*`), a prioritized two-way alternation
of sequences, a greedy counted repetition of a sequence, and group
open/close markers. -/
inductive RItem where
  | cls (p : Nat → Bool) (lo : Nat) (hi : Option Nat)
  | alt (a b : List RItem)
  | rep (body : List RItem) (lo hi : Nat)
  | gopen (g : Nat)
  | gclose (g : Nat)

/-- Counts `maxT, maxT-1, ..., lo` — the greedy preference order of a
counted class. -/
def descRange (maxT lo : Nat) : List Nat :=
  (List.range (maxT + 1 - lo)).map (fun d => maxT - d)

/-- Prioritized backtracking matcher.  Arguments: fuel, remaining items,
remaining input, absolute position, open-group stack, closed groups.
Returns the end position and groups of the first match in engine order. -/
def matchItems : Nat → List RItem → List Nat → Nat → List (Nat × Nat) →
    List (Nat × Nat × Nat) → Option (Nat × List (Nat × Nat × Nat))
  | 0, _, _, _, _, _ => none
  | _ + 1, [], _, pos, _, grps => some (pos, grps)
  | fuel + 1, .gopen g :: ps, s, pos, pend, grps =>
    matchItems fuel ps s pos ((g, pos) :: pend) grps
  | fuel + 1, .gclose g :: ps, s, pos, pend, grps =>
    match pend.find? (fun q => q.1 == g) with
    | some q =>
      matchItems fuel ps s pos (pend.eraseP (fun q => q.1 == g))
        ((g, q.2, pos) :: grps)
    | none => none
  | fuel + 1, .cls p lo hi :: ps, s, pos, pend, grps =>
    let maxT := match hi with
      | none => (s.takeWhile p).length
      | some h => min (s.takeWhile p).length h
    (descRange maxT lo).findSome?
      (fun k => matchItems fuel ps (s.drop k) (pos + k) pend grps)
  | fuel + 1, .alt a b :: ps, s, pos, pend, grps =>
    match matchItems fuel (a ++ ps) s pos pend grps with
    | some r => some r
    | none => matchItems fuel (b ++ ps) s pos pend grps
  | fuel + 1, .rep body lo hi :: ps, s, pos, pend, grps =>
    if lo > 0 then
      matchItems fuel (body ++ .rep body (lo - 1) (hi - 1) :: ps) s pos pend grps
    else if hi = 0 then
      matchItems fuel ps s pos pend grps
    else
      match matchItems fuel (body ++ .rep body 0 (hi - 1) :: ps) s pos pend grps with
      | some r => some r
      | none => matchItems fuel ps s pos pend grps

/-- A match attempt anchored at `pos` (Python's `rx.match` at a scan
position). -/
def runMatch (pat : List RItem) (text : PyStr) (pos : Nat) :
    Option (Nat × List (Nat × Nat × Nat)) :=
  matchItems 1000 pat (text.drop pos) pos [] []

/-- One `finditer` match: span and closed groups. -/
structure REMatch where
  ms : Nat
  me : Nat
  groups : List (Nat × Nat × Nat)
deriving DecidableEq

/-- Fuelled `finditer`: leftmost matches, resuming at each match end. -/
def findIterRGo (pat : List RItem) (text : PyStr) : Nat → Nat → List REMatch
  | _, 0 => []
  | pos, fuel + 1 =>
    if pos > text.length then []
    else
      match runMatch pat text pos with
      | some (e, grps) =>
        ⟨pos, e, grps⟩ ::
          findIterRGo pat text (if e ≤ pos then pos + 1 else e) fuel
      | none => findIterRGo pat text (pos + 1) fuel

/-- Python `rx.finditer(text)`. -/
def findIterR (pat : List RItem) (text : PyStr) : List REMatch :=
  findIterRGo pat text 0 (text.length + 1)

/-- The text of one named group of a match. -/
def groupSlice (text : PyStr) (m : REMatch) (g : Nat) : PyStr :=
  match m.groups.find? (fun q => q.1 == g) with
  | some q => pySlice text q.2.1 q.2.2
  | none => []

/-- Class `[一-龥]` (the `ZH` fragment). -/
def isUnifiedB (c : Nat) : Bool := decide (0x4E00 ≤ c) && decide (c ≤ 0x9FA5)

/-- Class `[A-Za-z]`. -/
def isAsciiLetterB (c : Nat) : Bool :=
  (decide (0x41 ≤ c) && decide (c ≤ 0x5A)) || (decide (0x61 ≤ c) && decide (c ≤ 0x7A))

/-- Class `[A-Za-z0-9\-]` (the `ABBR` body and English word body). -/
def isWordBodyB (c : Nat) : Bool :=
  isAsciiLetterB c || (decide (0x30 ≤ c) && decide (c ≤ 0x39)) || c == 0x2D

/-- Class `[A-Za-z0-9\-\s]` (the `EN` fragment body). -/
def isEnBodyB (c : Nat) : Bool := isWordBodyB c || isSpaceB c

/-- Class `[\(（]`. -/
def isOpenParenB (c : Nat) : Bool := c == 0x28 || c == 0xFF08

/-- Class `[\)）]`. -/
def isCloseParenB (c : Nat) : Bool := c == 0x29 || c == 0xFF09

/-- Class `[-－]` of patterns 4 and 5. -/
def isDashB (c : Nat) : Bool := c == 0x2D || c == 0xFF0D

/-- The `\s*` item. -/
def wsStar : RItem := .cls isSpaceB 0 none

/-- Group numbers for `zh` / `en` / `abbr`. -/
def gZH : Nat := 0
def gEN : Nat := 1
def gAB : Nat := 2

/-- The `(?P<zh>[一-龥]{2,30})` fragment. -/
def zhGroup : List RItem := [.gopen gZH, .cls isUnifiedB 2 (some 30), .gclose gZH]

/-- The `(?P<en>[A-Za-z][A-Za-z0-9\-\s]{1,80})` fragment. -/
def enGroup : List RItem :=
  [.gopen gEN, .cls isAsciiLetterB 1 (some 1), .cls isEnBodyB 1 (some 80), .gclose gEN]

/-- Pattern 1, `ZH \s* [\(（] \s* EN (?:\s*;\s*|；\s*) ABBR \s* [\)）]`. -/
def pat1 : List RItem :=
  zhGroup ++ [wsStar, .cls isOpenParenB 1 (some 1), wsStar] ++ enGroup ++
  [.alt [wsStar, .cls (fun c => c == 0x3B) 1 (some 1), wsStar]
        [.cls (fun c => c == 0xFF1B) 1 (some 1), wsStar],
   .gopen gAB, .cls isAsciiLetterB 1 (some 1), .cls isWordBodyB 1 (some 10),
   .gclose gAB, wsStar, .cls isCloseParenB 1 (some 1)]

/-- Pattern 2, `ZH \s* [\(（] \s* EN \s* [\)）]`. -/
def pat2 : List RItem :=
  zhGroup ++ [wsStar, .cls isOpenParenB 1 (some 1), wsStar] ++ enGroup ++
  [wsStar, .cls isCloseParenB 1 (some 1)]

/-- Pattern 3, `EN \s* [\(（] \s* ZH \s* [\)）]`. -/
def pat3 : List RItem :=
  enGroup ++ [wsStar, .cls isOpenParenB 1 (some 1), wsStar] ++ zhGroup ++
  [wsStar, .cls isCloseParenB 1 (some 1)]

/-- Pattern 4, `EN \s* [-－] \s* ZH`. -/
def pat4 : List RItem :=
  enGroup ++ [wsStar, .cls isDashB 1 (some 1), wsStar] ++ zhGroup

/-- Pattern 5, `ZH \s* [-－] \s* EN`. -/
def pat5 : List RItem :=
  zhGroup ++ [wsStar, .cls isDashB 1 (some 1), wsStar] ++ enGroup

/-- Python `re.sub(r"\s+", " ", s)`. -/
def pyCollapseWs (s : PyStr) : PyStr := collapseWsGo false s

/-- The pair built from one pattern-1 match: collapsed/stripped English,
stripped Chinese and abbreviation, style `ZH(EN;ABBR)`, empty variant cell
(`app_streamlit_auto_extract.py` lines 460-462; the provenance column added
at line 482 is constant and outside the five-column schema). -/
def mkPair1 (text : PyStr) (m : REMatch) : Row :=
  ⟨pyCollapseWs (pyStrip (groupSlice text m gEN)),
   pyStrip (groupSlice text m gZH),
   pyStrip (groupSlice text m gAB),
   pyStr "ZH(EN;ABBR)", []⟩

/-- The pair built from a match of patterns 2-5: no abbreviation, style
`ZH(EN)`. -/
def mkPairEN (text : PyStr) (m : REMatch) : Row :=
  ⟨pyCollapseWs (pyStrip (groupSlice text m gEN)),
   pyStrip (groupSlice text m gZH),
   [], pyStr "ZH(EN)", []⟩

/-- The `pairs` list of `parse_pdf_pairs` in append order. -/
def pairsRaw (text : PyStr) : List Row :=
  (findIterR pat1 text).map (mkPair1 text) ++
  (findIterR pat2 text).map (mkPairEN text) ++
  (findIterR pat3 text).map (mkPairEN text) ++
  (findIterR pat4 text).map (mkPairEN text) ++
  (findIterR pat5 text).map (mkPairEN text)

/-- Source `parse_pdf_pairs`: all five pattern passes, then
`drop_duplicates(subset=["en_canonical","zh_canonical","abbr"])`. -/
def parse_pdf_pairs (text : PyStr) : List Row := dedupBy rowKey (pairsRaw text)

lemma zh_en_styles_ne : pyStr "ZH(EN)" ≠ pyStr "ZH(EN;ABBR)" := by decide

/-- C5: on `腦中風(Stroke;CVA)` the extractor returns exactly the one pair
(English `Stroke`, Chinese `腦中風`, abbreviation `CVA`, style
`ZH(EN;ABBR)`); in general a returned pair carries style `ZH(EN;ABBR)`
exactly when it comes from a pattern-1 match (all other patterns tag
`ZH(EN)`), and the returned list is deduplicated on the
`(en, zh, abbr)` triple. -/
theorem c5_parse_pdf_pairs_spec :
    parse_pdf_pairs (pyStr "腦中風(Stroke;CVA)")
        = [⟨pyStr "Stroke", pyStr "腦中風", pyStr "CVA", pyStr "ZH(EN;ABBR)", []⟩] ∧
    (∀ (text : PyStr) (r : Row), r ∈ parse_pdf_pairs text →
      (r.first_mention_style = pyStr "ZH(EN;ABBR)" ↔
        r ∈ (findIterR pat1 text).map (mkPair1 text))) ∧
    (∀ text : PyStr,
      (parse_pdf_pairs text).Pairwise (fun a b => rowKey a ≠ rowKey b)) := by
  refine ⟨by decide, ?_, fun text => pairwise_dedupSeen rowKey [] (pairsRaw text)⟩
  intro text r hr
  constructor
  · intro hstyle
    have hraw : r ∈ pairsRaw text := mem_of_mem_dedupSeen hr
    simp only [pairsRaw, List.mem_append] at hraw
    rcases hraw with (((h | h) | h) | h) | h
    · exact h
    all_goals
      obtain ⟨m, _, rfl⟩ := List.mem_map.mp h
      exact absurd hstyle zh_en_styles_ne
  · intro h1
    obtain ⟨m, _, rfl⟩ := List.mem_map.mp h1
    rfl

/-!
## Unknown-term candidate generation, fallback branch

`app_streamlit_auto_plus.py` lines 87-98 and 163-192 (the same loops, in
merged form, at `app_streamlit_super.py` lines 282-305).  `en_tokens` is
`re.findall` of up-to-4-word English phrases; `cjk_tokens` collects the
fixed-length n-grams of the page text's CJK characters; the candidate loops
run over the token sets and, when `rapidfuzz` is not importable
(`HAVE_RF = False`), fall back to the pure length/membership heuristics
embedded here (the `HAVE_RF` branch calls the external scorer and is outside
this model).
-/

/-- Python `set(...)` of a token list, as its first-occurrence list. -/
def pySet (l : List PyStr) : List PyStr := dedupBy (fun x => x) l

/-- The `en_tokens` regex
`[A-Za-z][A-Za-z0-9\-]*(?:\s+[A-Za-z][A-Za-z0-9\-]*){0,3}`. -/
def enTokItems : List RItem :=
  [.cls isAsciiLetterB 1 (some 1), .cls isWordBodyB 0 none,
   .rep [.cls isSpaceB 1 none, .cls isAsciiLetterB 1 (some 1),
     .cls isWordBodyB 0 none] 0 3]

/-- Source `en_tokens`: the full-match texts of `re.findall`. -/
def en_tokens (text : PyStr) : List PyStr :=
  (findIterR enTokItems text).map (fun m => pySlice text m.ms m.me)

/-- The `toks` string of `cjk_tokens`: the text's U+4E00-U+9FFF characters
(`app_streamlit_auto_plus.py` line 88 tests only this range). -/
def cjkBasic (text : PyStr) : PyStr :=
  text.filter (fun c => decide (0x4E00 ≤ c) && decide (c ≤ 0x9FFF))

/-- Source `cjk_tokens`: every length-`L` slice of `toks` for `L` in
`range(min_len, min(max_len+1, n+1))`, as a set. -/
def cjk_tokens (text : PyStr) (minLen maxLen : Nat) : List PyStr :=
  pySet ((List.range' minLen (min (maxLen + 1) ((cjkBasic text).length + 1) - minLen)).flatMap
    (fun L => (List.range ((cjkBasic text).length - L + 1)).map
      (fun i => pySlice (cjkBasic text) i (i + L))))

/-- The `known_ens` pool: lower-cased canonical English terms and
abbreviations. -/
def knownEns (master : List Row) : List PyStr :=
  master.map (fun r => pyLower r.en) ++ master.map (fun r => pyLower r.abbr)

/-- The `known_zhs` pool. -/
def knownZhs (master : List Row) : List PyStr := master.map (fun r => r.zh)

/-- One `UNKNOWN_EN` / `UNKNOWN_ZH` record of the fallback branch
(`suggest` empty, `score` zero there). -/
structure UnknownCand where
  candidate : PyStr
  suggest : PyStr
  score : Nat
deriving DecidableEq

/-- The English candidate loop with `HAVE_RF = False`
(`app_streamlit_auto_plus.py` lines 167-180): strip the token (`t`), skip
falsy and known tokens, keep `len(t) >= 4`. -/
def en_cands_fallback (text : PyStr) (master : List Row) : List UnknownCand :=
  (pySet (en_tokens text)).filterMap (fun tok =>
    if pyStrip tok = [] then none
    else if pyLower (pyStrip tok) ∈ knownEns master then none
    else if 4 ≤ (pyStrip tok).length then some ⟨pyStrip tok, [], 0⟩
    else none)

/-- The Chinese candidate loop with `HAVE_RF = False`
(`app_streamlit_auto_plus.py` lines 183-192): keep every n-gram not already
known. -/
def zh_cands_fallback (text : PyStr) (master : List Row) (L : Nat) : List UnknownCand :=
  (cjk_tokens text L L).filterMap (fun gram =>
    if gram ∈ knownZhs master then none else some ⟨gram, [], 0⟩)

lemma first_occurrence_split {α : Type} [DecidableEq α] {l : List α} {x : α}
    (h : x ∈ l) : ∃ pre post, l = pre ++ x :: post ∧ x ∉ pre := by
  induction l with
  | nil => cases h
  | cons a r ih =>
    by_cases hx : x = a
    · exact ⟨[], r, by simp [hx], by simp⟩
    · rcases List.mem_cons.mp h with h' | h'
      · exact absurd h' hx
      · obtain ⟨pre, post, rfl, hnp⟩ := ih h'
        exact ⟨a :: pre, post, rfl, by
          intro hmem
          rcases List.mem_cons.mp hmem with h'' | h''
          · exact hx h''
          · exact hnp h''⟩

lemma mem_pySet {l : List PyStr} {x : PyStr} : x ∈ pySet l ↔ x ∈ l := by
  constructor
  · exact mem_of_mem_dedupSeen
  · intro h
    obtain ⟨pre, post, rfl, hnp⟩ := first_occurrence_split h
    exact mem_dedupSeen_iff.mpr
      ⟨by simp, pre, post, rfl, fun y hy heq => hnp (heq ▸ hy)⟩

/-- C8: with the fuzzy backend unavailable, the English fallback keeps
exactly the stripped tokens of length at least 4 whose case-folded form is
not a known English term or abbreviation (so every length-3-or-less
candidate is excluded), and the Chinese fallback keeps exactly the n-grams
not already among the known Chinese terms. -/
theorem c8_unknown_term_fallback :
    (∀ (text : PyStr) (master : List Row) (t : PyStr),
      (⟨t, [], 0⟩ : UnknownCand) ∈ en_cands_fallback text master ↔
        ((∃ tok ∈ en_tokens text, pyStrip tok = t) ∧ t ≠ [] ∧
          pyLower t ∉ knownEns master ∧ 4 ≤ t.length)) ∧
    (∀ (text : PyStr) (master : List Row) (L : Nat) (g : PyStr),
      (⟨g, [], 0⟩ : UnknownCand) ∈ zh_cands_fallback text master L ↔
        (g ∈ cjk_tokens text L L ∧ g ∉ knownZhs master)) := by
  constructor
  · intro text master t
    simp only [en_cands_fallback, List.mem_filterMap]
    constructor
    · rintro ⟨tok, htok, hf⟩
      split at hf
      · exact absurd hf (by simp)
      · split at hf
        · exact absurd hf (by simp)
        · split at hf
          · next h1 h2 h3 =>
            have ht : pyStrip tok = t :=
              congrArg UnknownCand.candidate (Option.some.inj hf)
            rw [ht] at h1 h2 h3
            exact ⟨⟨tok, mem_pySet.mp htok, ht⟩, h1, h2, h3⟩
          · exact absurd hf (by simp)
    · rintro ⟨⟨tok, htok, ht⟩, hne, hnk, hlen⟩
      refine ⟨tok, mem_pySet.mpr htok, ?_⟩
      rw [ht]
      rw [if_neg hne, if_neg hnk, if_pos hlen]
  · intro text master L g
    simp only [zh_cands_fallback, List.mem_filterMap]
    constructor
    · rintro ⟨gram, hgram, hf⟩
      split at hf
      · exact absurd hf (by simp)
      · next hnk =>
        have hg : gram = g := congrArg UnknownCand.candidate (Option.some.inj hf)
        rw [hg] at hgram hnk
        exact ⟨hgram, hnk⟩
    · rintro ⟨hmem, hnk⟩
      exact ⟨g, hmem, by rw [if_neg hnk]⟩
